import Mathlib

/-!
Verification of the queueing / connection-allocation / session-management
subsystem of the Save_Restricted_Content repository.

The embedding covers three Python classes:

* `ConnectionAllocator` (helpers/transfer.py): a global connection budget.
  `allocate` runs under a lock; when fewer than `min_per_transfer`
  connections are free it waits on a condition variable until the pool has
  at least `min_per_transfer` free connections (or times out, leaving the
  pool untouched).  We model the completed call as a step that fires only
  when the resume condition `total - in_use >= min_per_transfer` holds,
  and the timed-out call as a step that only advances the transfer counter.
  `_connections_in_use` is modelled as an `Int` so that "the count goes
  negative" is expressible.  Python's `int(fair_share * size_weight)` with
  `size_weight` drawn from {0.4, 0.6, 0.8, 1.0} agrees with the exact
  rational floor `fair_share * w10 / 10` (w10 in {4,6,8,10}) for every
  realistic `fair_share` (the double product is within half an ulp of the
  exact value, whose distance to the nearest integer is 0 or >= 0.2), so
  the weight is embedded as a numerator over 10 in `Nat` arithmetic.

* `DownloadQueueManager` (queue_manager.py): priority queue bookkeeping.
  `QueueItem` is a dataclass whose `user_id`, `download_coro`, `message`
  and `post_url` fields carry `compare=False`, so generated equality and
  ordering use only `(priority, timestamp)`.  The payload fields play no
  role in any claim and are omitted; an extra ghost field `arrival`
  records the insertion sequence number, used only to state stability of
  Python's `list.sort()` (a stable sort by `(priority, timestamp)`, which
  we embed as insertion sort with the non-strict key order).  Timestamps
  come from `datetime.now().timestamp()` and are modelled as arbitrary
  naturals supplied to each `add_to_queue` call; distinct calls may
  observe equal timestamps.

* `SessionManager` (helpers/session_manager.py): a bounded LRU of user
  sessions.  `active_sessions` is an `OrderedDict` whose key order (front
  = least recently used) we model as `order : List Nat`; `last_activity`
  is a separate dict modelled as an association list in dict insertion
  order.  Network calls (`client.disconnect()`, client creation and
  authorization) can fail; their outcomes are supplied as oracle
  parameters so that every exception path of the source is representable.
-/

/-! ## Association-list model of Python dicts -/

/-- First value stored under key `k` (Python `d.get(k)` / `d[k]`). -/
def dictFind {β : Type} (k : Nat) : List (Nat × β) → Option β
  | [] => none
  | (k', v) :: rest => if k' = k then some v else dictFind k rest

/-- Python `d[k] = v`: replace the value at an existing key in place,
otherwise append the binding (dicts keep insertion order). -/
def dictInsert {β : Type} (k : Nat) (v : β) : List (Nat × β) → List (Nat × β)
  | [] => [(k, v)]
  | (k', v') :: rest => if k' = k then (k, v) :: rest else (k', v') :: dictInsert k v rest

/-- Python `d.pop(k, None)`: drop the first binding for `k`, if any. -/
def dictErase {β : Type} (k : Nat) : List (Nat × β) → List (Nat × β)
  | [] => []
  | (k', v') :: rest => if k' = k then rest else (k', v') :: dictErase k rest

/-- Sum of the stored values of a `Nat`-valued dict. -/
def sumVals (l : List (Nat × Nat)) : Nat := (l.map Prod.snd).sum

theorem dictErase_sublist {β : Type} (k : Nat) (l : List (Nat × β)) :
    (dictErase k l).Sublist l := by
  induction l with
  | nil => simp [dictErase]
  | cons hd tl ih =>
    obtain ⟨k', v'⟩ := hd
    by_cases h : k' = k
    · simp [dictErase, h]
    · simpa [dictErase, h] using ih.cons₂ (k', v')

theorem sumVals_dictInsert_le (k v : Nat) (l : List (Nat × Nat)) :
    sumVals (dictInsert k v l) ≤ sumVals l + v := by
  induction l with
  | nil => simp [dictInsert, sumVals]
  | cons hd tl ih =>
    obtain ⟨k', v'⟩ := hd
    by_cases h : k' = k
    · simp [dictInsert, h, sumVals, List.map_cons, List.sum_cons]
      omega
    · simp only [dictInsert, h, if_false, sumVals, List.map_cons, List.sum_cons] at *
      omega

theorem sumVals_dictErase (k v : Nat) (l : List (Nat × Nat))
    (h : dictFind k l = some v) : sumVals (dictErase k l) + v = sumVals l := by
  induction l with
  | nil => simp [dictFind] at h
  | cons hd tl ih =>
    obtain ⟨k', v'⟩ := hd
    by_cases hk : k' = k
    · simp only [dictFind, if_pos hk, Option.some_inj] at h
      subst h
      simp only [dictErase, if_pos hk, sumVals, List.map_cons, List.sum_cons]
      omega
    · simp only [dictFind, hk, if_false] at h
      simp only [dictErase, hk, if_false, sumVals, List.map_cons, List.sum_cons]
      have := ih h
      simp only [sumVals] at this
      omega

theorem dictFind_dictInsert_self {β : Type} (k : Nat) (v : β) (l : List (Nat × β)) :
    dictFind k (dictInsert k v l) = some v := by
  induction l with
  | nil => simp [dictInsert, dictFind]
  | cons hd tl ih =>
    obtain ⟨k', v'⟩ := hd
    by_cases h : k' = k
    · simp [dictInsert, h, dictFind]
    · simp [dictInsert, h, dictFind, ih]

theorem dictFind_dictInsert_ne {β : Type} {k k' : Nat} (v : β) (l : List (Nat × β))
    (h : k' ≠ k) : dictFind k' (dictInsert k v l) = dictFind k' l := by
  induction l with
  | nil => simp [dictInsert, dictFind, Ne.symm h]
  | cons hd tl ih =>
    obtain ⟨k₀, v₀⟩ := hd
    by_cases hk : k₀ = k
    · subst hk
      simp [dictInsert, dictFind, Ne.symm h]
    · simp only [dictInsert, hk, if_false]
      by_cases hk' : k₀ = k'
      · simp [dictFind, hk']
      · simp [dictFind, hk', ih]

theorem dictFind_dictErase_ne {β : Type} {k k' : Nat} (l : List (Nat × β))
    (h : k' ≠ k) : dictFind k' (dictErase k l) = dictFind k' l := by
  induction l with
  | nil => simp [dictErase]
  | cons hd tl ih =>
    obtain ⟨k₀, v₀⟩ := hd
    by_cases hk : k₀ = k
    · subst hk
      simp [dictErase, dictFind, Ne.symm h]
    · by_cases hk' : k₀ = k'
      · subst hk'
        simp [dictErase, hk, dictFind]
      · simp [dictErase, hk, dictFind, hk', ih]

theorem dictFind_eq_none_of_not_mem {β : Type} {k : Nat} {l : List (Nat × β)}
    (h : k ∉ l.map Prod.fst) : dictFind k l = none := by
  induction l with
  | nil => simp [dictFind]
  | cons hd tl ih =>
    obtain ⟨k₀, v₀⟩ := hd
    simp only [List.map_cons, List.mem_cons, not_or] at h
    simp only [dictFind, if_neg (Ne.symm h.1)]
    exact ih h.2

theorem dictFind_dictErase_self_of_nodup {β : Type} {k : Nat} {l : List (Nat × β)}
    (h : (l.map Prod.fst).Nodup) : dictFind k (dictErase k l) = none := by
  induction l with
  | nil => simp [dictErase, dictFind]
  | cons hd tl ih =>
    obtain ⟨k₀, v₀⟩ := hd
    simp only [List.map_cons, List.nodup_cons] at h
    by_cases hk : k₀ = k
    · subst hk
      simp only [dictErase, if_pos rfl]
      exact dictFind_eq_none_of_not_mem h.1
    · simp only [dictErase, if_neg hk, dictFind, if_neg hk]
      exact ih h.2

theorem dictFind_isSome_of_mem {β : Type} {k : Nat} {v : β} {l : List (Nat × β)}
    (h : (k, v) ∈ l) : (dictFind k l).isSome := by
  induction l with
  | nil => simp at h
  | cons hd tl ih =>
    obtain ⟨k₀, v₀⟩ := hd
    rcases List.mem_cons.mp h with h1 | h1
    · injection h1 with h1a h1b
      simp [dictFind, h1a]
    · by_cases hk : k₀ = k
      · simp [dictFind, hk]
      · simp only [dictFind, if_neg hk]
        exact ih h1

/-! ## ConnectionAllocator (helpers/transfer.py) -/

/-- State of `ConnectionAllocator`: the configuration fields, the
`_active_transfers` dict mapping transfer id to its allocation, the
`_transfer_counter`, and `_connections_in_use` (as an `Int`). -/
structure CAState where
  total : Nat
  minPer : Nat
  maxPer : Nat
  transfers : List (Nat × Nat)
  counter : Nat
  inUse : Int
deriving DecidableEq

/-- `ConnectionAllocator.__init__`. -/
def initCA (total minPer maxPer : Nat) : CAState :=
  ⟨total, minPer, maxPer, [], 0, 0⟩

/-- The file-size weight of `allocate`, times 10: `1.0` for >= 10MB,
`0.8` for >= 1MB, `0.6` for >= 100KB, `0.4` otherwise. -/
def sizeWeight10 (fileSize : Nat) : Nat :=
  if fileSize ≥ 10 * 1024 * 1024 then 10
  else if fileSize ≥ 1 * 1024 * 1024 then 8
  else if fileSize ≥ 100 * 1024 then 6
  else 4

/-- `ConnectionAllocator.allocate`, at the moment it proceeds past the
availability check.  Returns `none` when the call would block (fewer than
`min_per_transfer` connections free: the caller waits on the condition
variable and the state is unchanged) or when one of the two `assert`
statements would fire (an `AssertionError` propagates before any state
mutation).  Otherwise returns the `(transfer_id, allocated)` result pair
and the successor state. -/
def allocStep (s : CAState) (fileSize : Nat) (tidOpt : Option Nat) :
    Option ((Nat × Nat) × CAState) :=
  if (s.total : Int) - s.inUse < (s.minPer : Int) then none
  else
    let tid := match tidOpt with | some t => t | none => s.counter + 1
    let counter' := match tidOpt with | some _ => s.counter | none => s.counter + 1
    let activeCount := s.transfers.length + 1
    let fairShare := s.total / activeCount
    let a0 := fairShare * sizeWeight10 fileSize / 10
    let a1 := max s.minPer (min a0 s.maxPer)
    let avail := ((s.total : Int) - s.inUse).toNat
    let a2 := min a1 avail
    if a2 < s.minPer then none
    else if (s.total : Int) < s.inUse + (a2 : Int) then none
    else some ((tid, a2),
      { s with transfers := dictInsert tid a2 s.transfers,
               counter := counter',
               inUse := s.inUse + (a2 : Int) })

/-- `ConnectionAllocator.release`: give the transfer's connections back
and drop its dict entry; unknown ids are ignored. -/
def releaseStep (s : CAState) (tid : Nat) : CAState :=
  match dictFind tid s.transfers with
  | some v => { s with transfers := dictErase tid s.transfers,
                       inUse := s.inUse - (v : Int) }
  | none => s

/-- States of the allocator reachable by any interleaving of completed
`allocate` calls, timed-out `allocate` calls (which only consumed a fresh
transfer id) and `release` calls. -/
inductive CAReach : CAState → Prop where
  | init : ∀ total minPer maxPer, CAReach (initCA total minPer maxPer)
  | alloc : ∀ {s : CAState} {fileSize : Nat} {tidOpt : Option Nat}
      {r : Nat × Nat} {s' : CAState},
      CAReach s → allocStep s fileSize tidOpt = some (r, s') → CAReach s'
  | timedOut : ∀ {s : CAState}, CAReach s → CAReach { s with counter := s.counter + 1 }
  | release : ∀ {s : CAState} (tid : Nat), CAReach s → CAReach (releaseStep s tid)

/-- The inductive pool invariant: `in_use` stays within `[0, total]` and
dominates the sum of all recorded per-transfer allocations. -/
def CAInv (s : CAState) : Prop :=
  0 ≤ s.inUse ∧ s.inUse ≤ (s.total : Int) ∧ (sumVals s.transfers : Int) ≤ s.inUse

theorem caInv_init (total minPer maxPer : Nat) : CAInv (initCA total minPer maxPer) := by
  simp [CAInv, initCA, sumVals]

theorem caInv_update (s : CAState) (tid c' a2 : Nat)
    (h1 : 0 ≤ s.inUse) (h3 : (sumVals s.transfers : Int) ≤ s.inUse)
    (h2 : s.inUse + (a2 : Int) ≤ (s.total : Int)) :
    CAInv { s with transfers := dictInsert tid a2 s.transfers,
                   counter := c', inUse := s.inUse + (a2 : Int) } := by
  have hsum := sumVals_dictInsert_le tid a2 s.transfers
  refine ⟨?_, ?_, ?_⟩ <;> simp only <;> omega

theorem caInv_alloc {s : CAState} {fileSize : Nat} {tidOpt : Option Nat}
    {r : Nat × Nat} {s' : CAState} (hinv : CAInv s)
    (h : allocStep s fileSize tidOpt = some (r, s')) : CAInv s' := by
  obtain ⟨hinv1, hinv2, hinv3⟩ := hinv
  unfold allocStep at h
  split at h
  · exact absurd h (by simp)
  · simp only at h
    split at h
    · exact absurd h (by simp)
    · split at h
      · exact absurd h (by simp)
      · rename_i hmin hassert
        rw [Option.some_inj, Prod.mk.injEq] at h
        refine h.2 ▸ caInv_update s _ _ _ hinv1 hinv3 ?_
        omega

theorem caInv_release {s : CAState} (tid : Nat) (hinv : CAInv s) :
    CAInv (releaseStep s tid) := by
  unfold releaseStep
  obtain ⟨hinv1, hinv2, hinv3⟩ := hinv
  cases hfind : dictFind tid s.transfers with
  | none => exact ⟨hinv1, hinv2, hinv3⟩
  | some v =>
    have hsum := sumVals_dictErase tid v s.transfers hfind
    have hle : (v : Int) ≤ (sumVals s.transfers : Int) := by
      have : v ≤ sumVals s.transfers := by omega
      exact_mod_cast this
    refine ⟨?_, ?_, ?_⟩
    · simp only
      have : ((sumVals (dictErase tid s.transfers) : Nat) : Int) + (v : Int)
          = (sumVals s.transfers : Int) := by exact_mod_cast hsum
      omega
    · simp only
      omega
    · simp only
      have : ((sumVals (dictErase tid s.transfers) : Nat) : Int) + (v : Int)
          = (sumVals s.transfers : Int) := by exact_mod_cast hsum
      omega

theorem caReach_inv {s : CAState} (h : CAReach s) : CAInv s := by
  induction h with
  | init total minPer maxPer => exact caInv_init total minPer maxPer
  | alloc _ hstep ih => exact caInv_alloc ih hstep
  | timedOut _ ih => exact ⟨ih.1, ih.2.1, ih.2.2⟩
  | release tid _ ih => exact caInv_release tid ih

/-- One completed `allocate` call with an auto-generated transfer id
(`transfer_id=None`), used to build concrete reachable states; if the call
would block or abort, the state is unchanged. -/
def caNext (s : CAState) (fileSize : Nat) : CAState :=
  match allocStep s fileSize none with
  | some (_, s') => s'
  | none => s

theorem caReach_caNext {s : CAState} (h : CAReach s) (fileSize : Nat) :
    CAReach (caNext s fileSize) := by
  unfold caNext
  cases hh : allocStep s fileSize none with
  | none => exact h
  | some p =>
    obtain ⟨r, s'⟩ := p
    exact CAReach.alloc h hh

/-- C1: for every sequence of allocate and release operations on the
ConnectionAllocator (any file sizes, any interleaving), the number of
connections in use stays within the pool: `0 <= _connections_in_use` and
`_connections_in_use <= total_connections` hold in every reachable state,
so allocate never overdraws the pool and release never drives the count
negative. -/
theorem connections_in_use_bounded (s : CAState) (h : CAReach s) :
    0 ≤ s.inUse ∧ s.inUse ≤ (s.total : Int) :=
  ⟨(caReach_inv h).1, (caReach_inv h).2.1⟩

/-- A concrete reachable allocator state: default configuration
(total=96, min=6, max=16) after one small-file allocation. -/
def caW1 : CAState := caNext (initCA 96 6 16) 0

theorem connections_in_use_bounded_witness :
    0 ≤ caW1.inUse ∧ caW1.inUse ≤ (caW1.total : Int) :=
  connections_in_use_bounded caW1 (caReach_caNext (CAReach.init 96 6 16) 0)

/-- The allocation count asserted by the specification: fair share
`total // active_transfers` (the new transfer included), times the
file-size weight, clamped to `[min_per_transfer, max_per_transfer]` —
with no further adjustment. -/
def specAllocClaim (s : CAState) (fileSize : Nat) : Nat :=
  max s.minPer
    (min (s.total / (s.transfers.length + 1) * sizeWeight10 fileSize / 10) s.maxPer)

/-- The amended allocation count: the clamped fair share, additionally
capped at the connections currently available (`total - in_use`). -/
def specAllocAmended (s : CAState) (fileSize : Nat) : Nat :=
  min (specAllocClaim s fileSize) ((s.total : Int) - s.inUse).toNat

/-- Reachable state refuting the claim formula: five active 16-connection
transfers plus one 6-connection transfer, 86 of 96 connections in use. -/
def caCex : CAState :=
  caNext (caNext (caNext (caNext (caNext (caNext
    (initCA 96 6 16) 10485760) 10485760) 10485760) 10485760) 10485760) 0

/-- The successor state of `caCex` after allocating a 10MB transfer. -/
def caCexAfter : CAState :=
  ⟨96, 6, 16, [(1, 16), (2, 16), (3, 16), (4, 16), (5, 16), (6, 6), (7, 10)], 7, 96⟩

theorem caCex_reachable : CAReach caCex :=
  caReach_caNext (caReach_caNext (caReach_caNext (caReach_caNext (caReach_caNext
    (caReach_caNext (CAReach.init 96 6 16) 10485760) 10485760) 10485760) 10485760)
    10485760) 0

/-- C5 counterexample: in the reachable state `caCex` (in_use = 86, ten
connections free), allocating a 10MB file yields 10 connections — the
clamped fair share (13) further capped at availability — while the claim
formula predicts 13. -/
theorem alloc_claim_formula_cex :
    CAReach caCex ∧
    allocStep caCex 10485760 none = some ((7, 10), caCexAfter) ∧
    specAllocClaim caCex 10485760 = 13 ∧ (10 : Nat) ≠ 13 :=
  ⟨caCex_reachable, by decide, by decide, by decide⟩

/-- C5 (amended): whenever `allocate` proceeds (at least
`min_per_transfer` connections are free), it neither blocks nor trips an
assertion, and the allocated count is exactly the fair share
`total // active_transfers` times the size weight, clamped to
`[min_per_transfer, max_per_transfer]` and then capped at the currently
available connections `total - in_use`. -/
theorem alloc_amended_formula (s : CAState) (fileSize : Nat) (tidOpt : Option Nat)
    (hg : (s.minPer : Int) ≤ (s.total : Int) - s.inUse) :
    (allocStep s fileSize tidOpt).map (fun p => p.1.2)
      = some (specAllocAmended s fileSize) := by
  have havail : s.minPer ≤ ((s.total : Int) - s.inUse).toNat := by omega
  have hA : ¬ ((s.total : Int) - s.inUse < (s.minPer : Int)) := by omega
  have hmin : s.minPer ≤ min (max s.minPer (min (s.total / (s.transfers.length + 1) *
      sizeWeight10 fileSize / 10) s.maxPer)) ((s.total : Int) - s.inUse).toNat :=
    le_min (le_max_left _ _) havail
  have hcap : s.inUse + ((min (max s.minPer (min (s.total / (s.transfers.length + 1) *
      sizeWeight10 fileSize / 10) s.maxPer)) ((s.total : Int) - s.inUse).toNat : Nat) : Int)
      ≤ (s.total : Int) := by
    have := min_le_right (max s.minPer (min (s.total / (s.transfers.length + 1) *
      sizeWeight10 fileSize / 10) s.maxPer)) ((s.total : Int) - s.inUse).toNat
    omega
  simp only [allocStep]
  rw [if_neg hA, if_neg (not_lt.mpr hmin), if_neg (not_lt.mpr hcap)]
  simp [specAllocAmended, specAllocClaim]

theorem alloc_amended_formula_witness :
    (allocStep (initCA 96 6 16) 0 none).map (fun p => p.1.2)
      = some (specAllocAmended (initCA 96 6 16) 0) :=
  alloc_amended_formula (initCA 96 6 16) 0 none (by decide)

/-! ## DownloadQueueManager (queue_manager.py) -/

/-- A `QueueItem`.  `priority` is `Priority.PREMIUM = 1` or
`Priority.FREE = 2`; `timestamp` is the enqueue clock reading.  The
dataclass marks `user_id` (and the payload fields, omitted here) with
`compare=False`, so generated equality and ordering use only
`(priority, timestamp)`.  `arrival` is a ghost insertion sequence number
(not present in the source) used solely to express the stability of
Python's `list.sort()`. -/
structure QueueItem where
  priority : Nat
  timestamp : Nat
  userId : Nat
  arrival : Nat
deriving DecidableEq

/-- The dataclass-generated `__eq__`: `compare=False` fields are ignored,
so two items are equal exactly when their `(priority, timestamp)` keys
agree. -/
def pyEqB (a b : QueueItem) : Bool :=
  a.priority == b.priority && a.timestamp == b.timestamp

/-- The non-strict `(priority, timestamp)` key order used by
`waiting_queue.sort()`. -/
def keyLe (a b : QueueItem) : Prop :=
  a.priority < b.priority ∨ (a.priority = b.priority ∧ a.timestamp ≤ b.timestamp)

instance decKeyLe : DecidableRel keyLe := fun a b => by
  unfold keyLe
  infer_instance

/-- Strict `(priority, timestamp, arrival)` order: the order in which a
stable sort by `(priority, timestamp)` keeps items that arrived in
`arrival` order. -/
def lex3Lt (a b : QueueItem) : Prop :=
  a.priority < b.priority ∨
    (a.priority = b.priority ∧
      (a.timestamp < b.timestamp ∨
        (a.timestamp = b.timestamp ∧ a.arrival < b.arrival)))

/-- Python's `list.sort()` on `QueueItem`s: a stable sort by the
`(priority, timestamp)` key, embedded as insertion sort with the
non-strict key order (earlier elements are inserted in front of
key-equal later elements, reproducing stability). -/
def pySort (l : List QueueItem) : List QueueItem :=
  l.insertionSort keyLe

/-- State of `DownloadQueueManager`: configuration, the
`active_downloads` set (as a duplicate-free list), the `waiting_queue`
list, the `user_queue_positions` dict and a ghost arrival counter
feeding `QueueItem.arrival`. -/
structure QState where
  maxC : Nat
  maxQ : Nat
  active : List Nat
  waiting : List QueueItem
  positions : List (Nat × QueueItem)
  counter : Nat
deriving DecidableEq

/-- `DownloadQueueManager.__init__(max_concurrent, max_queue)`. -/
def initQ (maxC maxQ : Nat) : QState := ⟨maxC, maxQ, [], [], [], 0⟩

/-- Python `set.add`. -/
def setAdd (l : List Nat) (u : Nat) : List Nat :=
  if u ∈ l then l else u :: l

/-- Outcome of `add_to_queue`, tagging which message the tuple carried;
the Python success flag is `True` exactly for `accepted`. -/
inductive AddResult where
  | alreadyActive
  | alreadyQueued
  | queueFull
  | accepted
deriving DecidableEq

/-- `DownloadQueueManager.add_to_queue(user_id, ..., is_premium)`, with
the clock reading `datetime.now().timestamp()` supplied as `ts`. -/
def addQ (s : QState) (u : Nat) (prem : Bool) (ts : Nat) : QState × AddResult :=
  if (dictFind u s.positions).isSome ∨ u ∈ s.active then
    if u ∈ s.active then (s, AddResult.alreadyActive) else (s, AddResult.alreadyQueued)
  else if s.maxC ≤ s.active.length then
    if s.maxQ ≤ s.waiting.length then (s, AddResult.queueFull)
    else
      let it : QueueItem := ⟨if prem then 1 else 2, ts, u, s.counter⟩
      ({ s with waiting := pySort (s.waiting ++ [it]),
                positions := dictInsert u it s.positions,
                counter := s.counter + 1 }, AddResult.accepted)
  else ({ s with active := setAdd s.active u }, AddResult.accepted)

/-- One iteration of the promotion loop in `_process_queue`: when a slot
is free and the queue is nonempty, pop the head, drop its queue-position
entry, and (unless its user is somehow already active, which the loop
skips with `continue`) add the user to `active_downloads`. -/
def promoteQ (s : QState) : QState :=
  if s.active.length < s.maxC then
    match s.waiting with
    | [] => s
    | it :: rest =>
      if it.userId ∈ s.active then
        { s with waiting := rest, positions := dictErase it.userId s.positions }
      else
        { s with waiting := rest, positions := dictErase it.userId s.positions,
                 active := setAdd s.active it.userId }
  else s

/-- The `finally` block of `_execute_download`: the user is discarded
from `active_downloads` when the download finishes, fails, or is
cancelled. -/
def completeQ (s : QState) (u : Nat) : QState :=
  { s with active := s.active.erase u }

/-- Python `list.remove(it)`: drop the first element `==`-equal to `it`
(dataclass equality, i.e. equal `(priority, timestamp)` key). -/
def removeFirstKeyEq (it : QueueItem) : List QueueItem → List QueueItem
  | [] => []
  | x :: xs => if pyEqB x it then xs else x :: removeFirstKeyEq it xs

/-- `DownloadQueueManager.cancel_user_download(user_id)`. -/
def cancelQ (s : QState) (u : Nat) : QState × Bool :=
  if u ∈ s.active then
    ({ s with active := s.active.erase u }, true)
  else
    match dictFind u s.positions with
    | some it =>
      if s.waiting.any (fun x => pyEqB x it) then
        ({ s with waiting := removeFirstKeyEq it s.waiting,
                  positions := dictErase u s.positions }, true)
      else (s, false)
    | none => (s, false)

/-- Queue-manager states reachable by any interleaving of
`add_to_queue`, promotion by the queue processor, download completion
and per-user cancellation. -/
inductive QReach : QState → Prop where
  | init : ∀ maxC maxQ, QReach (initQ maxC maxQ)
  | add : ∀ {s : QState} (u : Nat) (prem : Bool) (ts : Nat),
      QReach s → QReach (addQ s u prem ts).1
  | promote : ∀ {s : QState}, QReach s → QReach (promoteQ s)
  | complete : ∀ {s : QState} (u : Nat), QReach s → QReach (completeQ s u)
  | cancel : ∀ {s : QState} (u : Nat), QReach s → QReach (cancelQ s u).1

/-- Reachability restricted to runs in which no `add_to_queue` call ever
enqueues an item carrying the same `(priority, timestamp)` key as an item
already waiting (for instance because enqueue timestamps strictly
increase). -/
inductive QReachD : QState → Prop where
  | init : ∀ maxC maxQ, QReachD (initQ maxC maxQ)
  | add : ∀ {s : QState} (u : Nat) (prem : Bool) (ts : Nat),
      QReachD s →
      (∀ it ∈ s.waiting, ¬((if prem then (1 : Nat) else 2) = it.priority ∧ ts = it.timestamp)) →
      QReachD (addQ s u prem ts).1
  | promote : ∀ {s : QState}, QReachD s → QReachD (promoteQ s)
  | complete : ∀ {s : QState} (u : Nat), QReachD s → QReachD (completeQ s u)
  | cancel : ∀ {s : QState} (u : Nat), QReachD s → QReachD (cancelQ s u).1

theorem qReachD_reach {s : QState} (h : QReachD s) : QReach s := by
  induction h with
  | init maxC maxQ => exact QReach.init maxC maxQ
  | add u prem ts _ _ ih => exact QReach.add u prem ts ih
  | promote _ ih => exact QReach.promote ih
  | complete u _ ih => exact QReach.complete u ih
  | cancel u _ ih => exact QReach.cancel u ih

/-! ### Order facts for the queue key -/

theorem keyLe_total (a b : QueueItem) : keyLe a b ∨ keyLe b a := by
  unfold keyLe
  omega

theorem keyLe_trans {a b c : QueueItem} (h1 : keyLe a b) (h2 : keyLe b c) : keyLe a c := by
  unfold keyLe at *
  omega

theorem pairwise_keyLe_of_lex3 {l : List QueueItem} (h : List.Pairwise lex3Lt l) :
    List.Pairwise keyLe l :=
  h.imp (fun hab => by unfold lex3Lt keyLe at *; omega)

theorem lex3Lt_of_keyLe_arrival {a b : QueueItem} (h : keyLe a b)
    (ha : a.arrival < b.arrival) : lex3Lt a b := by
  unfold keyLe at h
  unfold lex3Lt
  omega

theorem lex3Lt_of_not_keyLe {a b : QueueItem} (h : ¬ keyLe a b) : lex3Lt b a := by
  unfold keyLe at h
  unfold lex3Lt
  omega

theorem lex3Lt_of_not_keyLe_of_lex3Lt {v x y : QueueItem} (h : ¬ keyLe x v)
    (h2 : lex3Lt x y) : lex3Lt v y := by
  unfold keyLe at h
  unfold lex3Lt at *
  omega

/-- Inserting a new element behind all key-equal elements: the effect of
a stable sort on an already-sorted list followed by one appended item. -/
def insertLast (v : QueueItem) : List QueueItem → List QueueItem
  | [] => [v]
  | x :: xs => if keyLe x v then x :: insertLast v xs else v :: x :: xs

theorem mem_insertLast {y v : QueueItem} :
    ∀ {l : List QueueItem}, y ∈ insertLast v l ↔ y = v ∨ y ∈ l
  | [] => by simp [insertLast]
  | x :: xs => by
    by_cases h : keyLe x v
    · rw [show insertLast v (x :: xs) = x :: insertLast v xs from if_pos h,
        List.mem_cons, List.mem_cons, mem_insertLast]
      tauto
    · rw [show insertLast v (x :: xs) = v :: x :: xs from if_neg h,
        List.mem_cons, List.mem_cons]

theorem pySort_append_single : ∀ (l : List QueueItem) (v : QueueItem),
    List.Pairwise keyLe l → pySort (l ++ [v]) = insertLast v l
  | [], v, _ => by simp [pySort, insertLast]
  | a :: l', v, h => by
    obtain ⟨ha, h'⟩ := List.pairwise_cons.mp h
    have ih := pySort_append_single l' v h'
    show List.orderedInsert keyLe a (pySort (l' ++ [v])) = insertLast v (a :: l')
    rw [ih]
    by_cases hav : keyLe a v
    · rw [show insertLast v (a :: l') = a :: insertLast v l' from if_pos hav]
      cases l' with
      | nil => simp [insertLast, List.orderedInsert, if_pos hav]
      | cons b bs =>
        by_cases hbv : keyLe b v
        · rw [show insertLast v (b :: bs) = b :: insertLast v bs from if_pos hbv]
          simp [List.orderedInsert, if_pos (ha b (by simp))]
        · rw [show insertLast v (b :: bs) = v :: b :: bs from if_neg hbv]
          simp [List.orderedInsert, if_pos hav]
    · have hl' : insertLast v l' = v :: l' := by
        cases l' with
        | nil => rfl
        | cons b bs =>
          have hbv : ¬ keyLe b v := fun hh => hav (keyLe_trans (ha b (by simp)) hh)
          exact if_neg hbv
      rw [hl', show insertLast v (a :: l') = v :: a :: l' from if_neg hav]
      have hstep : List.orderedInsert keyLe a (v :: l') = v :: List.orderedInsert keyLe a l' := by
        simp [List.orderedInsert, if_neg hav]
      rw [hstep]
      congr 1
      cases l' with
      | nil => rfl
      | cons b bs => simp [List.orderedInsert, if_pos (ha b (by simp))]

theorem pairwise_lex3_insertLast (v : QueueItem) : ∀ (l : List QueueItem),
    List.Pairwise lex3Lt l → (∀ x ∈ l, x.arrival < v.arrival) →
    List.Pairwise lex3Lt (insertLast v l)
  | [], _, _ => by simp [insertLast]
  | x :: xs, h, harr => by
    obtain ⟨hx, h'⟩ := List.pairwise_cons.mp h
    by_cases hxv : keyLe x v
    · rw [show insertLast v (x :: xs) = x :: insertLast v xs from if_pos hxv,
        List.pairwise_cons]
      constructor
      · intro y hy
        rcases mem_insertLast.mp hy with rfl | hy'
        · exact lex3Lt_of_keyLe_arrival hxv (harr x (by simp))
        · exact hx y hy'
      · exact pairwise_lex3_insertLast v xs h' (fun z hz => harr z (by simp [hz]))
    · rw [show insertLast v (x :: xs) = v :: x :: xs from if_neg hxv,
        List.pairwise_cons]
      constructor
      · intro y hy
        rcases List.mem_cons.mp hy with rfl | hy'
        · exact lex3Lt_of_not_keyLe hxv
        · exact lex3Lt_of_not_keyLe_of_lex3Lt hxv (hx y hy')
      · exact h

theorem removeFirstKeyEq_sublist (it : QueueItem) :
    ∀ l : List QueueItem, (removeFirstKeyEq it l).Sublist l
  | [] => by simp [removeFirstKeyEq]
  | x :: xs => by
    by_cases h : pyEqB x it = true
    · simp only [removeFirstKeyEq, if_pos h]
      exact List.Sublist.cons x (List.Sublist.refl xs)
    · simp only [removeFirstKeyEq, if_neg h]
      exact List.Sublist.cons₂ x (removeFirstKeyEq_sublist it xs)

/-! ### The basic queue invariant -/

/-- Invariant maintained by every run of the queue manager: the waiting
queue is strictly sorted by `(priority, timestamp, arrival)`, all
recorded arrivals are below the ghost counter, the active set is
duplicate-free, and both containers respect their size bounds. -/
def QInvP (s : QState) : Prop :=
  List.Pairwise lex3Lt s.waiting ∧
  (∀ it ∈ s.waiting, it.arrival < s.counter) ∧
  s.active.Nodup ∧
  s.active.length ≤ s.maxC ∧
  s.waiting.length ≤ s.maxQ ∧
  (∀ it ∈ s.waiting, it.priority = 1 ∨ it.priority = 2)

theorem qInvP_add (s : QState) (u : Nat) (prem : Bool) (ts : Nat) (h : QInvP s) :
    QInvP (addQ s u prem ts).1 := by
  obtain ⟨h1, h2, h3, h4, h5, h6⟩ := h
  unfold addQ
  split
  · split
    · exact ⟨h1, h2, h3, h4, h5, h6⟩
    · exact ⟨h1, h2, h3, h4, h5, h6⟩
  · split
    · split
      · exact ⟨h1, h2, h3, h4, h5, h6⟩
      · rename_i hfull hq
        simp only
        have hsort := pySort_append_single s.waiting
          ⟨if prem then 1 else 2, ts, u, s.counter⟩ (pairwise_keyLe_of_lex3 h1)
        have hperm := List.perm_insertionSort keyLe
          (s.waiting ++ [(⟨if prem then 1 else 2, ts, u, s.counter⟩ : QueueItem)])
        refine ⟨?_, ?_, h3, h4, ?_, ?_⟩
        · dsimp only
          rw [hsort]
          exact pairwise_lex3_insertLast _ _ h1 (fun x hx => h2 x hx)
        · dsimp only
          intro x hx
          have hx' : x ∈ s.waiting ++ [(⟨if prem then 1 else 2, ts, u, s.counter⟩ : QueueItem)] :=
            hperm.mem_iff.mp hx
          rcases List.mem_append.mp hx' with hx'' | hx''
          · exact Nat.lt_succ_of_lt (h2 x hx'')
          · simp at hx''
            subst hx''
            exact Nat.lt_succ_self _
        · dsimp only
          simp only [pySort]
          rw [hperm.length_eq, List.length_append]
          simp only [List.length_singleton]
          omega
        · dsimp only
          intro x hx
          have hx' : x ∈ s.waiting ++ [(⟨if prem then 1 else 2, ts, u, s.counter⟩ : QueueItem)] :=
            hperm.mem_iff.mp hx
          rcases List.mem_append.mp hx' with hx'' | hx''
          · exact h6 x hx''
          · simp at hx''
            subst hx''
            cases prem
            · exact Or.inr rfl
            · exact Or.inl rfl
    · rename_i hslot
      simp only
      refine ⟨h1, h2, ?_, ?_, h5, h6⟩
      · unfold setAdd
        split
        · exact h3
        · exact List.Nodup.cons (by assumption) h3
      · unfold setAdd
        split
        · exact h4
        · simp only [List.length_cons]
          omega

theorem qInvP_promote (s : QState) (h : QInvP s) : QInvP (promoteQ s) := by
  obtain ⟨h1, h2, h3, h4, h5, h6⟩ := h
  unfold promoteQ
  split
  · rename_i hlen
    split
    · exact ⟨h1, h2, h3, h4, h5, h6⟩
    · rename_i it rest hw
      rw [hw] at h1 h2 h5 h6
      simp only [List.length_cons] at h5
      obtain ⟨hhead, htail⟩ := List.pairwise_cons.mp h1
      split
      · exact ⟨htail, fun x hx => h2 x (by simp [hx]), h3, h4, by dsimp only; omega,
          fun x hx => h6 x (by simp [hx])⟩
      · rename_i hnotact
        refine ⟨htail, fun x hx => h2 x (by simp [hx]), ?_, ?_, by dsimp only; omega,
          fun x hx => h6 x (by simp [hx])⟩
        · dsimp only
          unfold setAdd
          split
          · exact h3
          · exact List.Nodup.cons (by assumption) h3
        · dsimp only
          unfold setAdd
          split
          · omega
          · simp only [List.length_cons]
            omega
  · exact ⟨h1, h2, h3, h4, h5, h6⟩

theorem qInvP_complete (s : QState) (u : Nat) (h : QInvP s) : QInvP (completeQ s u) := by
  obtain ⟨h1, h2, h3, h4, h5, h6⟩ := h
  refine ⟨h1, h2, h3.erase u, ?_, h5, h6⟩
  calc (s.active.erase u).length ≤ s.active.length :=
        (s.active.erase_sublist u).length_le
    _ ≤ s.maxC := h4

theorem qInvP_cancel (s : QState) (u : Nat) (h : QInvP s) : QInvP (cancelQ s u).1 := by
  obtain ⟨h1, h2, h3, h4, h5, h6⟩ := h
  unfold cancelQ
  split
  · refine ⟨h1, h2, h3.erase u, ?_, h5, h6⟩
    calc (s.active.erase u).length ≤ s.active.length :=
          (s.active.erase_sublist u).length_le
      _ ≤ s.maxC := h4
  · split
    · rename_i it hfind
      split
      · have hsub := removeFirstKeyEq_sublist it s.waiting
        refine ⟨h1.sublist hsub, fun x hx => h2 x (hsub.mem hx), h3, h4, ?_,
          fun x hx => h6 x (hsub.mem hx)⟩
        calc (removeFirstKeyEq it s.waiting).length ≤ s.waiting.length := hsub.length_le
          _ ≤ s.maxQ := h5
      · exact ⟨h1, h2, h3, h4, h5, h6⟩
    · exact ⟨h1, h2, h3, h4, h5, h6⟩

theorem qReach_invP {s : QState} (h : QReach s) : QInvP s := by
  induction h with
  | init maxC maxQ =>
    exact ⟨List.Pairwise.nil, by simp [initQ], List.nodup_nil, by simp [initQ],
      by simp [initQ], by simp [initQ]⟩
  | add u prem ts _ ih => exact qInvP_add _ u prem ts ih
  | promote _ ih => exact qInvP_promote _ ih
  | complete u _ ih => exact qInvP_complete _ u ih
  | cancel u _ ih => exact qInvP_cancel _ u ih

/-- C4: in every reachable queue state, the head of the waiting queue —
the item the processor promotes next — strictly precedes every other
waiting item in the `(priority, timestamp, arrival)` order: premium
(priority 1) items are dequeued before free items regardless of enqueue
time, items within one tier are dequeued in timestamp (FIFO) order, and
equal timestamps are broken by arrival order; in particular the head is
premium whenever any waiting item is premium. -/
theorem waiting_priority_order (s : QState) (h : QReach s) (it : QueueItem)
    (rest : List QueueItem) (hw : s.waiting = it :: rest) :
    (∀ x ∈ rest, lex3Lt it x) ∧ (∀ x ∈ s.waiting, x.priority = 1 → it.priority = 1) := by
  have h1 := (qReach_invP h).1
  have hdom := (qReach_invP h).2.2.2.2.2
  rw [hw] at h1 hdom
  have hpc := List.pairwise_cons.mp h1
  refine ⟨hpc.1, ?_⟩
  intro x hx hxp
  rw [hw] at hx
  rcases List.mem_cons.mp hx with rfl | hx'
  · exact hxp
  · have hlt := hpc.1 x hx'
    have hit := hdom it (by simp)
    unfold lex3Lt at hlt
    omega

/-- A concrete reachable queue state with no free slot (max_concurrent=0),
a free item enqueued at timestamp 7 and a premium item at timestamp 9. -/
def qW4 : QState := (addQ (addQ (initQ 0 5) 1 false 7).1 2 true 9).1

theorem waiting_priority_order_witness :
    lex3Lt ⟨1, 9, 2, 1⟩ ⟨2, 7, 1, 0⟩ ∧ (⟨1, 9, 2, 1⟩ : QueueItem).priority = 1 :=
  have h := waiting_priority_order qW4
    (QReach.add 2 true 9 (QReach.add 1 false 7 (QReach.init 0 5)))
    ⟨1, 9, 2, 1⟩ [⟨2, 7, 1, 0⟩] (by decide)
  ⟨h.1 ⟨2, 7, 1, 0⟩ (by decide), h.2 ⟨1, 9, 2, 1⟩ (by decide) (by decide)⟩

/-! ### The strong queue invariant (distinct sort keys) -/

/-- Two items have different `(priority, timestamp)` sort keys, i.e. the
dataclass `__eq__` distinguishes them. -/
def keyNe (a b : QueueItem) : Prop :=
  ¬(a.priority = b.priority ∧ a.timestamp = b.timestamp)

theorem keyNe_symm : ∀ {a b : QueueItem}, keyNe a b → keyNe b a := by
  intro a b h
  unfold keyNe at *
  tauto

theorem pyEqB_iff {a b : QueueItem} :
    pyEqB a b = true ↔ (a.priority = b.priority ∧ a.timestamp = b.timestamp) := by
  simp [pyEqB]

theorem pyEqB_self (a : QueueItem) : pyEqB a a = true := by
  simp [pyEqB]

theorem not_mem_keys_of_dictFind_none {β : Type} {k : Nat} {l : List (Nat × β)}
    (h : dictFind k l = none) : k ∉ l.map Prod.fst := by
  intro hk
  obtain ⟨⟨k₀, v₀⟩, hmem, heq⟩ := List.mem_map.mp hk
  dsimp only at heq
  subst heq
  have := dictFind_isSome_of_mem hmem
  rw [h] at this
  simp at this

theorem keys_dictInsert_of_none {β : Type} {k : Nat} (v : β) {l : List (Nat × β)}
    (h : dictFind k l = none) :
    (dictInsert k v l).map Prod.fst = l.map Prod.fst ++ [k] := by
  induction l with
  | nil => simp [dictInsert]
  | cons hd tl ih =>
    obtain ⟨k₀, v₀⟩ := hd
    by_cases hk : k₀ = k
    · simp [dictFind, hk] at h
    · simp only [dictFind, if_neg hk] at h
      simp [dictInsert, hk, ih h]

theorem nodupKeys_dictInsert_of_none {β : Type} {k : Nat} (v : β) {l : List (Nat × β)}
    (h : dictFind k l = none) (hn : (l.map Prod.fst).Nodup) :
    ((dictInsert k v l).map Prod.fst).Nodup := by
  rw [keys_dictInsert_of_none v h]
  rw [(List.perm_append_singleton k (l.map Prod.fst)).nodup_iff]
  exact List.nodup_cons.mpr ⟨not_mem_keys_of_dictFind_none h, hn⟩

theorem not_mem_removeFirstKeyEq (it : QueueItem) :
    ∀ l : List QueueItem, l.Nodup → (∀ x ∈ l, x ≠ it → ¬ pyEqB x it = true) →
    it ∉ removeFirstKeyEq it l
  | [], _, _ => by simp [removeFirstKeyEq]
  | x :: xs, hnd, hx => by
    by_cases heq : pyEqB x it = true
    · have hxit : x = it := by
        by_contra hne
        exact hx x (by simp) hne heq
      subst hxit
      simp only [removeFirstKeyEq, if_pos heq]
      exact (List.nodup_cons.mp hnd).1
    · have hne : x ≠ it := fun hh => heq (hh ▸ pyEqB_self it)
      simp only [removeFirstKeyEq, if_neg heq, List.mem_cons, not_or]
      exact ⟨fun hh => hne hh.symm,
        not_mem_removeFirstKeyEq it xs (List.nodup_cons.mp hnd).2
          (fun y hy hyne => hx y (by simp [hy]) hyne)⟩

theorem mem_removeFirstKeyEq_of_ne (it : QueueItem) :
    ∀ l : List QueueItem, ∀ y ∈ l, y ≠ it →
    (∀ x ∈ l, x ≠ it → ¬ pyEqB x it = true) → y ∈ removeFirstKeyEq it l
  | [], y, hy, _, _ => by simp at hy
  | x :: xs, y, hy, hyne, hx => by
    by_cases heq : pyEqB x it = true
    · have hxit : x = it := by
        by_contra hne
        exact hx x (by simp) hne heq
      subst hxit
      simp only [removeFirstKeyEq, if_pos heq]
      rcases List.mem_cons.mp hy with rfl | hy'
      · exact absurd rfl hyne
      · exact hy'
    · simp only [removeFirstKeyEq, if_neg heq, List.mem_cons]
      rcases List.mem_cons.mp hy with rfl | hy'
      · exact Or.inl rfl
      · exact Or.inr (mem_removeFirstKeyEq_of_ne it xs y hy' hyne
          (fun z hz hzne => hx z (by simp [hz]) hzne))

/-- Invariant of runs with distinct sort keys: the active set and the
user ids of waiting items are duplicate-free, no user is active and
waiting at once, `user_queue_positions` holds exactly one binding per
waiting item, and all waiting items carry distinct `(priority,
timestamp)` keys. -/
def QInvD (s : QState) : Prop :=
  s.active.Nodup ∧
  (s.waiting.map QueueItem.userId).Nodup ∧
  (∀ u ∈ s.active, ∀ it ∈ s.waiting, it.userId ≠ u) ∧
  (∀ u it, dictFind u s.positions = some it ↔ (it ∈ s.waiting ∧ it.userId = u)) ∧
  (s.positions.map Prod.fst).Nodup ∧
  List.Pairwise keyNe s.waiting

theorem qInvD_add (s : QState) (u : Nat) (prem : Bool) (ts : Nat)
    (hfresh : ∀ it ∈ s.waiting,
      ¬((if prem then (1 : Nat) else 2) = it.priority ∧ ts = it.timestamp))
    (h : QInvD s) : QInvD (addQ s u prem ts).1 := by
  obtain ⟨h1, h2, h3, h4, h5, h6⟩ := h
  unfold addQ
  split
  · split
    · exact ⟨h1, h2, h3, h4, h5, h6⟩
    · exact ⟨h1, h2, h3, h4, h5, h6⟩
  · rename_i hg
    rw [not_or] at hg
    obtain ⟨hgs, hact⟩ := hg
    have hfind : dictFind u s.positions = none := by
      cases hfd : dictFind u s.positions with
      | none => rfl
      | some v => rw [hfd] at hgs; simp at hgs
    have hu_not_waiting : ∀ it' ∈ s.waiting, it'.userId ≠ u := by
      intro it' hmem hid
      have := (h4 u it').mpr ⟨hmem, hid⟩
      rw [hfind] at this
      exact Option.noConfusion this
    split
    · split
      · exact ⟨h1, h2, h3, h4, h5, h6⟩
      · rename_i hfull hq
        have hperm := List.perm_insertionSort keyLe
          (s.waiting ++ [(⟨if prem then 1 else 2, ts, u, s.counter⟩ : QueueItem)])
        have hmem_iff : ∀ x : QueueItem,
            x ∈ pySort (s.waiting ++ [(⟨if prem then 1 else 2, ts, u, s.counter⟩ : QueueItem)]) ↔
            x ∈ s.waiting ∨ x = ⟨if prem then 1 else 2, ts, u, s.counter⟩ := by
          intro x
          rw [show (x ∈ pySort (s.waiting ++ [(⟨if prem then 1 else 2, ts, u, s.counter⟩ : QueueItem)])) ↔
            x ∈ s.waiting ++ [(⟨if prem then 1 else 2, ts, u, s.counter⟩ : QueueItem)] from hperm.mem_iff]
          simp
        refine ⟨h1, ?_, ?_, ?_, ?_, ?_⟩
        · dsimp only
          have hmap : (pySort (s.waiting ++
              [(⟨if prem then 1 else 2, ts, u, s.counter⟩ : QueueItem)])).map QueueItem.userId
              |>.Perm ((s.waiting.map QueueItem.userId) ++ [u]) := by
            have := hperm.map QueueItem.userId
            simpa using this
          rw [hmap.nodup_iff, (List.perm_append_singleton u _).nodup_iff]
          refine List.nodup_cons.mpr ⟨?_, h2⟩
          intro hk
          obtain ⟨x, hx, hxu⟩ := List.mem_map.mp hk
          exact hu_not_waiting x hx hxu
        · dsimp only
          intro u' hu' x hxmem
          rcases (hmem_iff x).mp hxmem with hx | hx
          · exact h3 u' hu' x hx
          · subst hx
            dsimp only
            intro hh
            rw [hh] at hact
            exact hact hu'
        · dsimp only
          intro u' it'
          by_cases hu' : u' = u
          · subst hu'
            rw [dictFind_dictInsert_self]
            constructor
            · intro hh
              rw [Option.some_inj] at hh
              subst hh
              exact ⟨(hmem_iff _).mpr (Or.inr rfl), rfl⟩
            · rintro ⟨hmem, hid⟩
              rcases (hmem_iff it').mp hmem with hx | hx
              · exact absurd hid (hu_not_waiting it' hx)
              · rw [hx]
          · rw [dictFind_dictInsert_ne _ _ hu', h4 u' it']
            constructor
            · rintro ⟨hmem, hid⟩
              exact ⟨(hmem_iff it').mpr (Or.inl hmem), hid⟩
            · rintro ⟨hmem, hid⟩
              rcases (hmem_iff it').mp hmem with hx | hx
              · exact ⟨hx, hid⟩
              · subst hx
                exact absurd hid.symm (by simpa using hu')
        · dsimp only
          exact nodupKeys_dictInsert_of_none _ hfind h5
        · dsimp only
          have hpw : List.Pairwise keyNe (s.waiting ++
              [(⟨if prem then 1 else 2, ts, u, s.counter⟩ : QueueItem)]) := by
            rw [List.pairwise_append]
            refine ⟨h6, by simp, ?_⟩
            intro a ha b hb
            simp only [List.mem_singleton] at hb
            subst hb
            intro hc
            exact hfresh a ha ⟨hc.1.symm, hc.2.symm⟩
          exact (List.Perm.pairwise_iff (fun hab => keyNe_symm hab) hperm).mpr hpw
    · rename_i hslot
      have hsa : setAdd s.active u = u :: s.active := by
        unfold setAdd
        rw [if_neg hact]
      refine ⟨?_, h2, ?_, h4, h5, h6⟩
      · dsimp only
        rw [hsa]
        exact List.Nodup.cons hact h1
      · dsimp only
        rw [hsa]
        intro u' hu' x hx
        rcases List.mem_cons.mp hu' with rfl | hu''
        · exact hu_not_waiting x hx
        · exact h3 u' hu'' x hx

theorem qInvD_promote (s : QState) (h : QInvD s) : QInvD (promoteQ s) := by
  obtain ⟨h1, h2, h3, h4, h5, h6⟩ := h
  unfold promoteQ
  split
  · rename_i hlen
    split
    · exact ⟨h1, h2, h3, h4, h5, h6⟩
    · rename_i it rest hw
      rw [hw] at h2 h3 h4 h6
      have hhd : it.userId ∉ rest.map QueueItem.userId := by
        simp only [List.map_cons, List.nodup_cons] at h2
        exact h2.1
      split
      · rename_i hinact
        exact absurd rfl (h3 it.userId hinact it (List.mem_cons_self it rest))
      · rename_i hnot
        have hsa : setAdd s.active it.userId = it.userId :: s.active := by
          unfold setAdd
          rw [if_neg hnot]
        refine ⟨?_, ?_, ?_, ?_, ?_, ?_⟩
        · dsimp only
          rw [hsa]
          exact List.Nodup.cons hnot h1
        · dsimp only
          exact (List.nodup_cons.mp (by simpa using h2)).2
        · dsimp only
          rw [hsa]
          intro u' hu' x hx
          rcases List.mem_cons.mp hu' with rfl | hu''
          · intro heq
            exact hhd (List.mem_map.mpr ⟨x, hx, heq⟩)
          · exact h3 u' hu'' x (List.mem_cons_of_mem it hx)
        · dsimp only
          intro u' it'
          by_cases hu' : u' = it.userId
          · subst hu'
            rw [dictFind_dictErase_self_of_nodup h5]
            constructor
            · intro hh
              exact Option.noConfusion hh
            · rintro ⟨hmem, hid⟩
              exact absurd (List.mem_map.mpr ⟨it', hmem, hid⟩) hhd
          · rw [dictFind_dictErase_ne _ hu', h4 u' it']
            constructor
            · rintro ⟨hmem, hid⟩
              rcases List.mem_cons.mp hmem with rfl | hmm
              · exact absurd hid.symm hu'
              · exact ⟨hmm, hid⟩
            · rintro ⟨hmem, hid⟩
              exact ⟨List.mem_cons_of_mem it hmem, hid⟩
        · dsimp only
          exact h5.sublist ((dictErase_sublist it.userId s.positions).map Prod.fst)
        · dsimp only
          exact (List.pairwise_cons.mp h6).2
  · exact ⟨h1, h2, h3, h4, h5, h6⟩

theorem qInvD_complete (s : QState) (u : Nat) (h : QInvD s) : QInvD (completeQ s u) := by
  obtain ⟨h1, h2, h3, h4, h5, h6⟩ := h
  refine ⟨h1.erase u, h2, ?_, h4, h5, h6⟩
  intro u' hu' x hx
  exact h3 u' ((s.active.erase_sublist u).subset hu') x hx

theorem qInvD_cancel (s : QState) (u : Nat) (h : QInvD s) : QInvD (cancelQ s u).1 := by
  obtain ⟨h1, h2, h3, h4, h5, h6⟩ := h
  unfold cancelQ
  split
  · refine ⟨h1.erase u, h2, ?_, h4, h5, h6⟩
    intro u' hu' x hx
    exact h3 u' ((s.active.erase_sublist u).subset hu') x hx
  · split
    · rename_i it hfind
      split
      · rename_i hany
        obtain ⟨hitmem, hitid⟩ := (h4 u it).mp hfind
        have hnd : s.waiting.Nodup := List.Nodup.of_map QueueItem.userId h2
        have hkeyne : ∀ x ∈ s.waiting, x ≠ it → ¬ pyEqB x it = true := by
          intro x hx hxne hpy
          have hne := (h6.forall (fun _ _ hab => keyNe_symm hab)) hx hitmem hxne
          exact hne (pyEqB_iff.mp hpy)
        have hnotmem := not_mem_removeFirstKeyEq it s.waiting hnd hkeyne
        have hsubw := removeFirstKeyEq_sublist it s.waiting
        refine ⟨h1, ?_, ?_, ?_, ?_, ?_⟩
        · dsimp only
          exact h2.sublist (hsubw.map QueueItem.userId)
        · dsimp only
          intro u' hu' x hx
          exact h3 u' hu' x (hsubw.subset hx)
        · dsimp only
          intro u' it'
          by_cases hu' : u' = u
          · subst hu'
            rw [dictFind_dictErase_self_of_nodup h5]
            constructor
            · intro hh
              exact Option.noConfusion hh
            · rintro ⟨hmem, hid⟩
              have heq : it' = it := List.inj_on_of_nodup_map h2
                (hsubw.subset hmem) hitmem (by rw [hid, hitid])
              rw [heq] at hmem
              exact absurd hmem hnotmem
          · rw [dictFind_dictErase_ne _ hu', h4 u' it']
            constructor
            · rintro ⟨hmem, hid⟩
              have hne : it' ≠ it := by
                intro hh
                rw [hh] at hid
                rw [hitid] at hid
                exact hu' hid.symm
              exact ⟨mem_removeFirstKeyEq_of_ne it s.waiting it' hmem hne hkeyne, hid⟩
            · rintro ⟨hmem, hid⟩
              exact ⟨hsubw.subset hmem, hid⟩
        · dsimp only
          exact h5.sublist ((dictErase_sublist u s.positions).map Prod.fst)
        · dsimp only
          exact h6.sublist hsubw
      · exact ⟨h1, h2, h3, h4, h5, h6⟩
    · exact ⟨h1, h2, h3, h4, h5, h6⟩

theorem qReachD_invD {s : QState} (h : QReachD s) : QInvD s := by
  induction h with
  | init maxC maxQ =>
    refine ⟨List.nodup_nil, by simp [initQ], by simp [initQ], ?_, by simp [initQ],
      List.Pairwise.nil⟩
    intro u it
    simp [initQ, dictFind]
  | add u prem ts _ hfresh ih => exact qInvD_add _ u prem ts hfresh ih
  | promote _ ih => exact qInvD_promote _ ih
  | complete u _ ih => exact qInvD_complete _ u ih
  | cancel u _ ih => exact qInvD_cancel _ u ih

/-- C2 (amended): in every run in which no `add_to_queue` call enqueues
an item with the same `(priority, timestamp)` key as an item already
waiting (for instance, strictly increasing enqueue timestamps), no
user_id is ever simultaneously in the active-download set and the
waiting queue, and each user has at most one waiting item and at most
one active membership. -/
theorem queue_active_waiting_disjoint (s : QState) (h : QReachD s) :
    (∀ u ∈ s.active, ∀ it ∈ s.waiting, it.userId ≠ u) ∧
    (s.waiting.map QueueItem.userId).Nodup ∧ s.active.Nodup :=
  ⟨(qReachD_invD h).2.2.1, (qReachD_invD h).2.1, (qReachD_invD h).1⟩

/-- A concrete key-distinct run: user 3 active (max_concurrent = 1),
users 1 (free, t=7) and 2 (premium, t=9) waiting. -/
def qW2 : QState := (addQ (addQ (addQ (initQ 1 5) 3 false 1).1 1 false 7).1 2 true 9).1

theorem queue_active_waiting_disjoint_witness :
    (⟨1, 9, 2, 1⟩ : QueueItem).userId ≠ 3 ∧ (qW2.waiting.map QueueItem.userId).Nodup :=
  have h := queue_active_waiting_disjoint qW2
    (QReachD.add 2 true 9
      (QReachD.add 1 false 7
        (QReachD.add 3 false 1 (QReachD.init 1 5) (by decide)) (by decide)) (by decide))
  ⟨h.1 3 (by decide) ⟨1, 9, 2, 1⟩ (by decide), h.2.1⟩

/-- Reachable state after: users 10,11,12 active (max_concurrent = 3),
user 1 and user 2 enqueued with the SAME key (FREE, t=5), then user 2
cancelled — `list.remove` deleted user 1's `==`-equal item instead, so
user 2's item is still waiting while 2 has no queue-position entry —
then user 10 finished, and user 2 called add_to_queue again. -/
def qC2 : QState :=
  (addQ (completeQ (cancelQ (addQ (addQ (addQ (addQ (addQ (initQ 3 20)
    10 false 1).1 11 false 2).1 12 false 3).1 1 false 5).1 2 false 5).1 2).1 10) 2 false 9).1

/-- C2 counterexample: in the reachable state `qC2`, user 2 is in the
active-download set while an item with user_id 2 is still in the waiting
queue — equal `(priority, timestamp)` keys defeat the claimed
invariant. -/
theorem queue_disjoint_cex :
    QReach qC2 ∧ 2 ∈ qC2.active ∧ (⟨2, 5, 2, 1⟩ : QueueItem) ∈ qC2.waiting ∧
    (⟨2, 5, 2, 1⟩ : QueueItem).userId = 2 := by
  refine ⟨?_, by decide, by decide, by decide⟩
  exact QReach.add 2 false 9 (QReach.complete 10 (QReach.cancel 2 (QReach.add 2 false 5
    (QReach.add 1 false 5 (QReach.add 12 false 3 (QReach.add 11 false 2
      (QReach.add 10 false 1 (QReach.init 3 20))))))))

/-- C9 (amended): in every key-distinct run, after
`cancel_user_download(u)` returns, user `u` is in neither the
active-download set nor the waiting queue; the call returns success if
and only if `u` was active or queued beforehand, and on failure the
state is unchanged. -/
theorem cancel_removes_user (s : QState) (h : QReachD s) (u : Nat) :
    (∀ it ∈ (cancelQ s u).1.waiting, it.userId ≠ u) ∧
    u ∉ (cancelQ s u).1.active ∧
    ((cancelQ s u).2 = true ↔ (u ∈ s.active ∨ u ∈ s.waiting.map QueueItem.userId)) ∧
    ((cancelQ s u).2 = false → (cancelQ s u).1 = s) := by
  obtain ⟨h1, h2, h3, h4, h5, h6⟩ := qReachD_invD h
  unfold cancelQ
  split
  · rename_i hact
    refine ⟨?_, ?_, ?_, ?_⟩
    · dsimp only
      intro it hmem heq
      exact h3 u hact it hmem heq
    · dsimp only
      intro hmem
      exact ((List.Nodup.mem_erase_iff h1).mp hmem).1 rfl
    · dsimp only
      exact ⟨fun _ => Or.inl hact, fun _ => rfl⟩
    · dsimp only
      intro hfalse
      exact Bool.noConfusion hfalse
  · rename_i hnact
    split
    · rename_i it hfind
      obtain ⟨hitmem, hitid⟩ := (h4 u it).mp hfind
      split
      · rename_i hany
        have hnd : s.waiting.Nodup := List.Nodup.of_map QueueItem.userId h2
        have hkeyne : ∀ x ∈ s.waiting, x ≠ it → ¬ pyEqB x it = true := by
          intro x hx hxne hpy
          have hne := (h6.forall (fun _ _ hab => keyNe_symm hab)) hx hitmem hxne
          exact hne (pyEqB_iff.mp hpy)
        have hnotmem := not_mem_removeFirstKeyEq it s.waiting hnd hkeyne
        refine ⟨?_, ?_, ?_, ?_⟩
        · dsimp only
          intro x hmem heq
          have heq2 : x = it := List.inj_on_of_nodup_map h2
            ((removeFirstKeyEq_sublist it s.waiting).subset hmem) hitmem
            (by rw [heq, hitid])
          rw [heq2] at hmem
          exact hnotmem hmem
        · dsimp only
          exact hnact
        · dsimp only
          exact ⟨fun _ => Or.inr (List.mem_map.mpr ⟨it, hitmem, hitid⟩), fun _ => rfl⟩
        · dsimp only
          intro hfalse
          exact Bool.noConfusion hfalse
      · rename_i hnotany
        exact absurd (show (s.waiting.any fun x => pyEqB x it) = true from
          List.any_eq_true.mpr ⟨it, hitmem, pyEqB_self it⟩) hnotany
    · rename_i hfind
      refine ⟨?_, ?_, ?_, ?_⟩
      · dsimp only
        intro x hmem heq
        have := (h4 u x).mpr ⟨hmem, heq⟩
        rw [hfind] at this
        exact Option.noConfusion this
      · exact hnact
      · dsimp only
        constructor
        · intro hh
          exact Bool.noConfusion hh
        · intro hor
          rcases hor with hh | hh
          · exact absurd hh hnact
          · obtain ⟨x, hx, hxu⟩ := List.mem_map.mp hh
            have := (h4 u x).mpr ⟨hx, hxu⟩
            rw [hfind] at this
            exact Option.noConfusion this
      · intro _
        rfl

/-- The same key-distinct three-user run as `qW2`, rebuilt for the
cancellation witness. -/
def qW9 : QState := (addQ (addQ (addQ (initQ 1 5) 3 false 1).1 1 false 7).1 2 true 9).1

theorem cancel_removes_user_witness :
    1 ∉ (cancelQ qW9 1).1.active ∧
    ((cancelQ qW9 1).2 = true ↔ (1 ∈ qW9.active ∨ 1 ∈ qW9.waiting.map QueueItem.userId)) :=
  have h := cancel_removes_user qW9
    (QReachD.add 2 true 9
      (QReachD.add 1 false 7
        (QReachD.add 3 false 1 (QReachD.init 1 5) (by decide)) (by decide)) (by decide)) 1
  ⟨h.2.1, h.2.2.1⟩

/-- Reachable state with users 10,11,12 active and two waiting items
that share the key (FREE, t=5): user 1's item (arrival 0) and user 2's
item (arrival 1). -/
def qC9pre : QState :=
  (addQ (addQ (addQ (addQ (addQ (initQ 3 20)
    10 false 1).1 11 false 2).1 12 false 3).1 1 false 5).1 2 false 5).1

/-- C9 counterexample: cancelling user 2 in `qC9pre` reports success,
but user 2's own item is still in the waiting queue afterwards —
`list.remove` deleted user 1's `==`-equal item instead. -/
theorem cancel_leaves_user_queued_cex :
    QReach qC9pre ∧ (cancelQ qC9pre 2).2 = true ∧
    (⟨2, 5, 2, 1⟩ : QueueItem) ∈ (cancelQ qC9pre 2).1.waiting ∧
    (⟨2, 5, 2, 1⟩ : QueueItem).userId = 2 := by
  refine ⟨?_, by decide, by decide, by decide⟩
  exact QReach.add 2 false 5 (QReach.add 1 false 5 (QReach.add 12 false 3
    (QReach.add 11 false 2 (QReach.add 10 false 1 (QReach.init 3 20)))))

/-- C8 (amended): in every key-distinct run, `add_to_queue` returns a
rejection (success flag False) if and only if the requesting user
already has a waiting item or an active download, or the active set
holds max_concurrent downloads and the waiting queue holds max_queue
items; in every other case it succeeds — starting immediately (the user
joins the active set) when a slot is free, and otherwise appending the
item and re-sorting the waiting queue by `(priority, timestamp)`. -/
theorem add_reject_iff (s : QState) (h : QReachD s) (u : Nat) (prem : Bool) (ts : Nat) :
    ((addQ s u prem ts).2 ≠ AddResult.accepted ↔
      (u ∈ s.waiting.map QueueItem.userId ∨ u ∈ s.active ∨
        (s.active.length = s.maxC ∧ s.waiting.length = s.maxQ))) ∧
    ((addQ s u prem ts).2 = AddResult.accepted → s.active.length < s.maxC →
      (addQ s u prem ts).1 = { s with active := setAdd s.active u }) ∧
    ((addQ s u prem ts).2 = AddResult.accepted → ¬ s.active.length < s.maxC →
      (addQ s u prem ts).1.waiting =
        pySort (s.waiting ++ [⟨if prem then 1 else 2, ts, u, s.counter⟩])) := by
  obtain ⟨h1, h2, h3, h4, h5, h6⟩ := qReachD_invD h
  obtain ⟨_, _, _, hszA, hszQ, _⟩ := qReach_invP (qReachD_reach h)
  unfold addQ
  split
  · rename_i hg
    have hmem : u ∈ s.waiting.map QueueItem.userId ∨ u ∈ s.active := by
      rcases hg with hg1 | hg1
      · left
        obtain ⟨it, hit⟩ := Option.isSome_iff_exists.mp hg1
        obtain ⟨hh1, hh2⟩ := (h4 u it).mp hit
        exact List.mem_map.mpr ⟨it, hh1, hh2⟩
      · exact Or.inr hg1
    split
    · refine ⟨iff_of_true (fun hh => AddResult.noConfusion hh) (by tauto), ?_, ?_⟩
      · intro hacc
        exact AddResult.noConfusion hacc
      · intro hacc
        exact AddResult.noConfusion hacc
    · refine ⟨iff_of_true (fun hh => AddResult.noConfusion hh) (by tauto), ?_, ?_⟩
      · intro hacc
        exact AddResult.noConfusion hacc
      · intro hacc
        exact AddResult.noConfusion hacc
  · rename_i hg
    rw [not_or] at hg
    obtain ⟨hgs, hact⟩ := hg
    have hfind : dictFind u s.positions = none := by
      cases hfd : dictFind u s.positions with
      | none => rfl
      | some v => rw [hfd] at hgs; simp at hgs
    have hu_not_waiting : u ∉ s.waiting.map QueueItem.userId := by
      intro hk
      obtain ⟨x, hx, hxu⟩ := List.mem_map.mp hk
      have := (h4 u x).mpr ⟨hx, hxu⟩
      rw [hfind] at this
      exact Option.noConfusion this
    split
    · rename_i hfull
      split
      · rename_i hqfull
        refine ⟨iff_of_true (fun hh => AddResult.noConfusion hh)
          (Or.inr (Or.inr ⟨Nat.le_antisymm hszA hfull, Nat.le_antisymm hszQ hqfull⟩)), ?_, ?_⟩
        · intro hacc
          exact AddResult.noConfusion hacc
        · intro hacc
          exact AddResult.noConfusion hacc
      · rename_i hqfree
        refine ⟨iff_of_false (by simp) ?_, ?_, ?_⟩
        · rintro (hh | hh | hh)
          · exact hu_not_waiting hh
          · exact hact hh
          · exact hqfree (le_of_eq hh.2.symm)
        · intro _ hlt
          omega
        · intro _ _
          rfl
    · rename_i hslot
      refine ⟨iff_of_false (by simp) ?_, ?_, ?_⟩
      · rintro (hh | hh | hh)
        · exact hu_not_waiting hh
        · exact hact hh
        · exact hslot (le_of_eq hh.1.symm)
      · intro _ _
        rfl
      · intro _ hnlt
        omega

/-- The same key-distinct three-user run as `qW2`, rebuilt for the
admission witness: user 3 active (max_concurrent = 1), two items
waiting (max_queue = 5). -/
def qW8 : QState := (addQ (addQ (addQ (initQ 1 5) 3 false 1).1 1 false 7).1 2 true 9).1

theorem add_reject_iff_witness :
    ((addQ qW8 5 false 11).2 ≠ AddResult.accepted ↔
      (5 ∈ qW8.waiting.map QueueItem.userId ∨ 5 ∈ qW8.active ∨
        (qW8.active.length = qW8.maxC ∧ qW8.waiting.length = qW8.maxQ))) :=
  (add_reject_iff qW8
    (QReachD.add 2 true 9
      (QReachD.add 1 false 7
        (QReachD.add 3 false 1 (QReachD.init 1 5) (by decide)) (by decide)) (by decide))
    5 false 11).1

/-- Reachable state with users 10,11,12 active and the duplicate-key
cancellation already performed: user 2's item (FREE, t=5, arrival 1) is
still waiting but user 2 has no queue-position entry. -/
def qC8pre : QState :=
  (cancelQ (addQ (addQ (addQ (addQ (addQ (initQ 3 20)
    10 false 1).1 11 false 2).1 12 false 3).1 1 false 5).1 2 false 5).1 2).1

/-- C8 counterexample: in the reachable state `qC8pre`, user 2 still has
an item in the waiting queue, yet `add_to_queue` for user 2 succeeds
(and enqueues a second item for the same user) instead of rejecting. -/
theorem add_accepts_queued_user_cex :
    QReach qC8pre ∧ (⟨2, 5, 2, 1⟩ : QueueItem) ∈ qC8pre.waiting ∧
    (⟨2, 5, 2, 1⟩ : QueueItem).userId = 2 ∧
    (addQ qC8pre 2 false 9).2 = AddResult.accepted := by
  refine ⟨?_, by decide, by decide, by decide⟩
  exact QReach.cancel 2 (QReach.add 2 false 5 (QReach.add 1 false 5 (QReach.add 12 false 3
    (QReach.add 11 false 2 (QReach.add 10 false 1 (QReach.init 3 20))))))

/-! ## SessionManager (helpers/session_manager.py) -/

/-- Result of `get_or_create_session`: an existing client is reused, a
new one created, or one of the error codes `slots_full`,
`invalid_session`, `creation_failed` is returned. -/
inductive GocResult where
  | existing
  | created
  | slotsFull
  | invalidSession
  | creationFailed
deriving DecidableEq

/-- Oracle for the client-creation block: connect + authorization check
succeed, the session is unauthorized, or an exception occurs. -/
inductive CreateOutcome where
  | ok
  | notAuthorized
  | connectFail
deriving DecidableEq

/-- State of `SessionManager`: configuration, the key order of the
`active_sessions` OrderedDict (front = least recently used; the client
handles themselves carry no information relevant to the claims), and the
`last_activity` dict in insertion order. -/
structure SMState where
  maxSessions : Nat
  idleTimeout : Nat
  order : List Nat
  lastAct : List (Nat × Nat)
deriving DecidableEq

/-- `SessionManager.__init__`; `idleTimeout` is in seconds. -/
def initSM (maxSessions idleTimeout : Nat) : SMState :=
  ⟨maxSessions, idleTimeout, [], []⟩

/-- Python `OrderedDict.move_to_end`. -/
def moveToEnd (l : List Nat) (u : Nat) : List Nat := l.erase u ++ [u]

/-- The "create new session" block of `get_or_create_session`: on
success the client is stored (most recent position) and its activity
time recorded; an unauthorized or failed creation stores nothing. -/
def smCreate (s : SMState) (uid now : Nat) : CreateOutcome → GocResult × SMState
  | CreateOutcome.ok =>
    (GocResult.created, { s with order := s.order ++ [uid],
                                 lastAct := dictInsert uid now s.lastAct })
  | CreateOutcome.notAuthorized => (GocResult.invalidSession, s)
  | CreateOutcome.connectFail => (GocResult.creationFailed, s)

/-- `SessionManager.get_or_create_session`.  `activeDl` is the download
queue's `active_downloads` set at the moment of the call; `evictOk`
tells whether the monitor/disconnect calls of the eviction block ran
without an exception (on an exception `last_activity.pop` is skipped);
`co` is the outcome of the client-creation block. -/
def getOrCreateS (s : SMState) (uid now : Nat) (activeDl : List Nat)
    (evictOk : Bool) (co : CreateOutcome) : GocResult × SMState :=
  if uid ∈ s.order then
    (GocResult.existing, { s with order := moveToEnd s.order uid,
                                  lastAct := dictInsert uid now s.lastAct })
  else if s.maxSessions ≤ s.order.length then
    match s.order.filter (fun v => decide (v ∉ activeDl)) with
    | [] => (GocResult.slotsFull, s)
    | e :: _ =>
      smCreate { s with order := s.order.erase e,
                        lastAct := if evictOk then dictErase e s.lastAct else s.lastAct }
        uid now co
  else smCreate s uid now co

/-- `SessionManager.remove_session`; `ok` is whether
`client.disconnect()` returned without an exception (on an exception the
deletions are skipped). -/
def removeSessionS (s : SMState) (uid : Nat) (ok : Bool) : SMState :=
  if uid ∈ s.order then
    if ok then { s with order := s.order.erase uid, lastAct := dictErase uid s.lastAct }
    else s
  else s

/-- One iteration of the disconnect loop of `cleanup_idle_sessions`. -/
def cleanupStep (ok : Nat → Bool) (acc : SMState × Nat) (u : Nat) : SMState × Nat :=
  if u ∈ acc.1.order then
    if ok u then
      ({ acc.1 with order := acc.1.order.erase u, lastAct := dictErase u acc.1.lastAct },
        acc.2 + 1)
    else acc
  else acc

/-- `SessionManager.cleanup_idle_sessions`: collect every user whose
idle time `now - last_active` strictly exceeds the timeout, then
disconnect each one still holding a session.  The active-download set is
never consulted. -/
def cleanupIdleS (s : SMState) (now : Nat) (ok : Nat → Bool) : SMState × Nat :=
  ((s.lastAct.filter (fun p => decide (s.idleTimeout < now - p.2))).map Prod.fst).foldl
    (cleanupStep ok) (s, 0)

/-- `SessionManager.disconnect_all` (exceptions per client are swallowed
and both containers are cleared afterwards). -/
def disconnectAllS (s : SMState) : SMState :=
  { s with order := [], lastAct := [] }

/-- Session-manager states reachable by any interleaving of the four
operations, with arbitrary per-call inputs and failure oracles. -/
inductive SMReach : SMState → Prop where
  | init : ∀ maxSessions idleTimeout, SMReach (initSM maxSessions idleTimeout)
  | goc : ∀ {s : SMState} (uid now : Nat) (activeDl : List Nat) (evictOk : Bool)
      (co : CreateOutcome), SMReach s → SMReach (getOrCreateS s uid now activeDl evictOk co).2
  | cleanup : ∀ {s : SMState} (now : Nat) (ok : Nat → Bool),
      SMReach s → SMReach (cleanupIdleS s now ok).1
  | remove : ∀ {s : SMState} (uid : Nat) (ok : Bool),
      SMReach s → SMReach (removeSessionS s uid ok)
  | disconnectAll : ∀ {s : SMState}, SMReach s → SMReach (disconnectAllS s)

theorem nodup_moveToEnd {l : List Nat} {u : Nat} (h : l.Nodup) : (moveToEnd l u).Nodup := by
  unfold moveToEnd
  rw [(List.perm_append_singleton u (l.erase u)).nodup_iff]
  refine List.nodup_cons.mpr ⟨?_, h.erase u⟩
  intro hm
  exact ((List.Nodup.mem_erase_iff h).mp hm).1 rfl

theorem length_moveToEnd {l : List Nat} {u : Nat} (h : u ∈ l) :
    (moveToEnd l u).length = l.length := by
  unfold moveToEnd
  rw [List.length_append, List.length_erase_of_mem h]
  have := List.length_pos_of_mem h
  simp only [List.length_singleton]
  omega

theorem smInv_smCreate {s : SMState} {uid now : Nat} (co : CreateOutcome)
    (h1 : s.order.Nodup) (h2 : uid ∉ s.order) (hlen : s.order.length < s.maxSessions) :
    (smCreate s uid now co).2.order.Nodup ∧
    (smCreate s uid now co).2.order.length ≤ (smCreate s uid now co).2.maxSessions := by
  cases co with
  | ok =>
    dsimp only [smCreate]
    constructor
    · rw [(List.perm_append_singleton uid s.order).nodup_iff]
      exact List.nodup_cons.mpr ⟨h2, h1⟩
    · rw [List.length_append]
      simp only [List.length_singleton]
      omega
  | notAuthorized => exact ⟨h1, by dsimp only [smCreate]; omega⟩
  | connectFail => exact ⟨h1, by dsimp only [smCreate]; omega⟩

theorem smInv_goc {s : SMState} (uid now : Nat) (activeDl : List Nat) (evictOk : Bool)
    (co : CreateOutcome) (h1 : s.order.Nodup) (h2 : s.order.length ≤ s.maxSessions) :
    (getOrCreateS s uid now activeDl evictOk co).2.order.Nodup ∧
    (getOrCreateS s uid now activeDl evictOk co).2.order.length ≤
      (getOrCreateS s uid now activeDl evictOk co).2.maxSessions := by
  unfold getOrCreateS
  split
  · rename_i hmem
    dsimp only
    refine ⟨nodup_moveToEnd h1, ?_⟩
    rw [length_moveToEnd hmem]
    exact h2
  · rename_i hnm
    split
    · rename_i hcap
      split
      · exact ⟨h1, h2⟩
      · rename_i e es hfilter
        have hemem : e ∈ s.order :=
          List.mem_of_mem_filter (by rw [hfilter]; exact List.mem_cons_self e es)
        have hpos := List.length_pos_of_mem hemem
        have hlen : (s.order.erase e).length = s.order.length - 1 :=
          List.length_erase_of_mem hemem
        apply smInv_smCreate co (h1.erase e)
        · intro hm
          exact hnm ((s.order.erase_sublist e).subset hm)
        · dsimp only
          omega
    · rename_i hncap
      apply smInv_smCreate co h1 hnm
      omega

theorem smInv_cleanupFold (ok : Nat → Bool) :
    ∀ (us : List Nat) (acc : SMState × Nat), acc.1.order.Nodup →
      acc.1.order.length ≤ acc.1.maxSessions →
      ((us.foldl (cleanupStep ok) acc).1.order.Nodup ∧
       (us.foldl (cleanupStep ok) acc).1.order.length ≤
         (us.foldl (cleanupStep ok) acc).1.maxSessions)
  | [], _, ha, hb => ⟨ha, hb⟩
  | u :: us, acc, ha, hb => by
    rw [List.foldl_cons]
    have hstep : (cleanupStep ok acc u).1.order.Nodup ∧
        (cleanupStep ok acc u).1.order.length ≤ (cleanupStep ok acc u).1.maxSessions := by
      unfold cleanupStep
      split
      · split
        · exact ⟨ha.erase u, le_trans (acc.1.order.erase_sublist u).length_le hb⟩
        · exact ⟨ha, hb⟩
      · exact ⟨ha, hb⟩
    exact smInv_cleanupFold ok us _ hstep.1 hstep.2

theorem smReach_inv {s : SMState} (h : SMReach s) :
    s.order.Nodup ∧ s.order.length ≤ s.maxSessions := by
  induction h with
  | init m t => exact ⟨List.nodup_nil, by simp [initSM]⟩
  | goc uid now activeDl evictOk co _ ih => exact smInv_goc uid now activeDl evictOk co ih.1 ih.2
  | cleanup now ok _ ih => exact smInv_cleanupFold ok _ _ ih.1 ih.2
  | remove uid ok _ ih =>
    unfold removeSessionS
    split
    · split
      · exact ⟨ih.1.erase uid, le_trans (List.Sublist.length_le
          (List.erase_sublist _ _)) ih.2⟩
      · exact ih
    · exact ih
  | disconnectAll _ ih => exact ⟨List.nodup_nil, by simp [disconnectAllS]⟩

/-- C6: the number of sessions held by the SessionManager never exceeds
`max_sessions`: after every `get_or_create_session`, `remove_session`,
`cleanup_idle_sessions` or `disconnect_all`, the session count is at
most `max_sessions` — at capacity a new session is admitted only after
one has been evicted. -/
theorem session_count_bounded (s : SMState) (h : SMReach s) :
    s.order.length ≤ s.maxSessions :=
  (smReach_inv h).2

/-- A concrete reachable manager state: capacity 2, one session. -/
def smW6 : SMState := (getOrCreateS (initSM 2 1800) 1 0 [] true CreateOutcome.ok).2

theorem session_count_bounded_witness : smW6.order.length ≤ smW6.maxSessions :=
  session_count_bounded smW6
    (SMReach.goc 1 0 [] true CreateOutcome.ok (SMReach.init 2 1800))

theorem filter_split {p : Nat → Bool} :
    ∀ {l : List Nat} {e : Nat} {es : List Nat}, l.filter p = e :: es →
    ∃ l1 l2, l = l1 ++ e :: l2 ∧ ∀ v ∈ l1, p v = false := by
  intro l
  induction l with
  | nil => intro e es h; simp at h
  | cons x xs ih =>
    intro e es h
    by_cases hx : p x = true
    · rw [List.filter_cons_of_pos hx] at h
      injection h with h1 h2
      subst h1
      exact ⟨[], xs, rfl, by simp⟩
    · rw [List.filter_cons_of_neg hx] at h
      obtain ⟨l1, l2, hl, hp⟩ := ih h
      refine ⟨x :: l1, l2, by rw [hl]; rfl, ?_⟩
      intro v hv
      rcases List.mem_cons.mp hv with rfl | hv'
      · exact Bool.not_eq_true _ |>.mp hx
      · exact hp v hv'

/-- C7: when `get_or_create_session` is called for a user with no
session while the manager holds `max_sessions` sessions: if every held
session's user has an active download, it returns the `slots_full`
signal with the state unchanged (no session created, none removed);
otherwise it evicts exactly the least-recently-used session whose user
has no active download — the first such user in the LRU order, every
user ahead of it having an active download. -/
theorem session_slots_full (s : SMState) (h : SMReach s) (uid now : Nat)
    (activeDl : List Nat) (evictOk : Bool) (co : CreateOutcome)
    (hn : uid ∉ s.order) (hc : s.order.length = s.maxSessions) :
    ((∀ v ∈ s.order, v ∈ activeDl) →
      getOrCreateS s uid now activeDl evictOk co = (GocResult.slotsFull, s)) ∧
    (∀ e es, s.order.filter (fun v => decide (v ∉ activeDl)) = e :: es →
      e ∉ activeDl ∧
      (∃ l1 l2, s.order = l1 ++ e :: l2 ∧ ∀ v ∈ l1, v ∈ activeDl) ∧
      e ∉ (getOrCreateS s uid now activeDl evictOk co).2.order) := by
  have hnd := (smReach_inv h).1
  constructor
  · intro hall
    have hfilter : s.order.filter (fun v => decide (v ∉ activeDl)) = [] := by
      rw [List.filter_eq_nil_iff]
      intro a ha
      simp [hall a ha]
    unfold getOrCreateS
    rw [if_neg hn, if_pos (le_of_eq hc.symm), hfilter]
  · intro e es hfilter
    have hef : e ∈ s.order.filter (fun v => decide (v ∉ activeDl)) := by
      rw [hfilter]
      exact List.mem_cons_self e es
    have hemem : e ∈ s.order := List.mem_of_mem_filter hef
    have hena : e ∉ activeDl := by
      have := List.of_mem_filter hef
      simpa using this
    obtain ⟨l1, l2, hl, hp⟩ := filter_split hfilter
    refine ⟨hena, ⟨l1, l2, hl, ?_⟩, ?_⟩
    · intro v hv
      have := hp v hv
      simpa using this
    · have hne : e ≠ uid := fun hh => hn (hh ▸ hemem)
      have hee : e ∉ s.order.erase e := fun hm =>
        ((List.Nodup.mem_erase_iff hnd).mp hm).1 rfl
      unfold getOrCreateS
      rw [if_neg hn, if_pos (le_of_eq hc.symm), hfilter]
      cases co with
      | ok =>
        dsimp only [smCreate]
        intro hm
        rcases List.mem_append.mp hm with hm' | hm'
        · exact hee hm'
        · simp at hm'
          exact hne hm'
      | notAuthorized =>
        dsimp only [smCreate]
        exact hee
      | connectFail =>
        dsimp only [smCreate]
        exact hee

/-- A concrete reachable manager at capacity: two sessions (users 1 then
2, capacity 2). -/
def smW7 : SMState :=
  (getOrCreateS (getOrCreateS (initSM 2 1800) 1 0 [] true CreateOutcome.ok).2
    2 5 [] true CreateOutcome.ok).2

theorem session_slots_full_witness :
    getOrCreateS smW7 3 9 [1, 2] true CreateOutcome.ok = (GocResult.slotsFull, smW7) ∧
    2 ∉ ([1] : List Nat) ∧
    2 ∉ (getOrCreateS smW7 3 9 [1] true CreateOutcome.ok).2.order :=
  have hreach : SMReach smW7 :=
    SMReach.goc 2 5 [] true CreateOutcome.ok
      (SMReach.goc 1 0 [] true CreateOutcome.ok (SMReach.init 2 1800))
  have hall := session_slots_full smW7 hreach 3 9 [1, 2] true CreateOutcome.ok
    (by decide) (by decide)
  have hsome := session_slots_full smW7 hreach 3 9 [1] true CreateOutcome.ok
    (by decide) (by decide)
  have h2 := hsome.2 2 [] (by decide)
  ⟨hall.1 (by decide), h2.1, h2.2.2⟩

/-- C3 (amended): capacity eviction in `get_or_create_session` never
drops a session whose user is in the download queue's active-download
set — every held session of an active-download user survives the call.
Idle-timeout cleanup, by contrast, selects victims by inactivity alone
and can remove such a session (see the counterexample). -/
theorem capacity_eviction_preserves_active (s : SMState) (uid now : Nat)
    (activeDl : List Nat) (evictOk : Bool) (co : CreateOutcome) (u : Nat)
    (hu : u ∈ s.order) (hd : u ∈ activeDl) :
    u ∈ (getOrCreateS s uid now activeDl evictOk co).2.order := by
  unfold getOrCreateS
  split
  · rename_i hmem
    dsimp only
    unfold moveToEnd
    by_cases he : u = uid
    · subst he
      exact List.mem_append.mpr (Or.inr (by simp))
    · exact List.mem_append.mpr (Or.inl ((List.mem_erase_of_ne he).mpr hu))
  · rename_i hnm
    split
    · split
      · exact hu
      · rename_i e es hfilter
        have hef : e ∈ s.order.filter (fun v => decide (v ∉ activeDl)) := by
          rw [hfilter]
          exact List.mem_cons_self e es
        have hena : e ∉ activeDl := by
          have := List.of_mem_filter hef
          simpa using this
        have hne : u ≠ e := fun hh => hena (hh ▸ hd)
        have hmem' : u ∈ s.order.erase e := (List.mem_erase_of_ne hne).mpr hu
        cases co with
        | ok =>
          dsimp only [smCreate]
          exact List.mem_append.mpr (Or.inl hmem')
        | notAuthorized =>
          dsimp only [smCreate]
          exact hmem'
        | connectFail =>
          dsimp only [smCreate]
          exact hmem'
    · cases co with
      | ok =>
        dsimp only [smCreate]
        exact List.mem_append.mpr (Or.inl hu)
      | notAuthorized => exact hu
      | connectFail => exact hu

/-- A concrete reachable manager at capacity 1 holding user 5's session. -/
def smW3 : SMState := (getOrCreateS (initSM 1 1800) 5 0 [] true CreateOutcome.ok).2

theorem capacity_eviction_preserves_active_witness :
    5 ∈ (getOrCreateS smW3 7 9 [5] true CreateOutcome.ok).2.order :=
  capacity_eviction_preserves_active smW3 7 9 [5] true CreateOutcome.ok 5
    (by decide) (by decide)

/-- A reachable manager (capacity 5, idle timeout 1800s) holding user
1's session created at time 0. -/
def smC3 : SMState := (getOrCreateS (initSM 5 1800) 1 0 [] true CreateOutcome.ok).2

/-- C3 counterexample: `cleanup_idle_sessions` never consults the
active-download set — at time 2000, with user 1 a member of the
(concrete) active-download set `[1]`, the cleanup still disconnects and
drops user 1's session, because its `last_activity` is 2000s old. -/
theorem idle_cleanup_evicts_active_cex :
    SMReach smC3 ∧ (1 ∈ ([1] : List Nat)) ∧ 1 ∈ smC3.order ∧
    1 ∉ (cleanupIdleS smC3 2000 (fun _ => true)).1.order := by
  refine ⟨SMReach.goc 1 0 [] true CreateOutcome.ok (SMReach.init 5 1800),
    by decide, by decide, by decide⟩
